import Mathlib

/-!
Shallow embedding of `taskhut` (`src/taskhut/annotation_tool.py`) and proofs
about its task cursor, annotate protocol, recent history, progress and dedup
operations.

Conventions of the embedding:
* Tasks are an arbitrary type `α`; the data source is a `List α`.
* The disk cache (`diskcache.Cache`) is an insertion-ordered association list
  from string keys to stored records; `cacheGet`/`cacheSet` model point
  `get`/`__setitem__`.
* Timestamps (`datetime.now().isoformat()`) are modelled as natural numbers;
  clock monotonicity is an explicit hypothesis where a claim needs it.
* The stored record is the dict produced by `Annotation(**record).model_dump()`;
  its field set is fixed, so it is modelled as a structure `Record` together
  with `Record.dumpGet`, the dictionary access on the dumped dict (used where
  the source subscripts the stored dict by a string key).
* The Python generator `get_tasks()` is modelled by its resumption position:
  `scanFrom t l pos` scans the suffix `l = t.data_source.drop pos` for the
  first routed, unannotated task, exactly as resuming the generator does
  (membership tests run against the cache live at resumption time).
* Fallible code (`KeyError`, polars errors) returns `Except String _`.
-/

namespace Taskhut

/-- The persisted annotation record (`Annotation` pydantic model in the
source): `example_hash`, `example` (field `task` here, since `example` is a
Lean keyword), `user`, `annotation` (field `label` here, since that source
name is unavailable), `creation_date`, `annotation_date`, `metadata`. -/
structure Record (α : Type) where
  example_hash : String
  task : α
  user : String
  label : String
  creation_date : Nat
  annotation_date : Nat
  metadata : List (String × String)
deriving DecidableEq, Repr

/-- A value stored under one key of the dumped record dict. -/
inductive DumpVal (α : Type) where
  | vStr : String → DumpVal α
  | vTask : α → DumpVal α
  | vTime : Nat → DumpVal α
  | vMeta : List (String × String) → DumpVal α
deriving DecidableEq, Repr

/-- Dictionary access on the dumped record: the stored dict has exactly the
seven keys of the `Annotation` model, so any other key is absent (a `KeyError`
in the source when subscripted). -/
def Record.dumpGet (r : Record α) : String → Option (DumpVal α)
  | "example_hash" => some (.vStr r.example_hash)
  | "example" => some (.vTask r.task)
  | "user" => some (.vStr r.user)
  | "annotation" => some (.vStr r.label)
  | "creation_date" => some (.vTime r.creation_date)
  | "annotation_date" => some (.vTime r.annotation_date)
  | "metadata" => some (.vMeta r.metadata)
  | _ => none

/-- Point lookup in the cache (`self.cache.get(key)` / `key in self.cache`). -/
def cacheGet : List (String × Record α) → String → Option (Record α)
  | [], _ => none
  | kv :: rest, k => if kv.1 == k then some kv.2 else cacheGet rest k

/-- Keyed write to the cache (`self.cache[key] = record`): overwrite in place
if the key exists, else append (diskcache iterates keys in insertion order,
and an overwrite keeps the position of the key). -/
def cacheSet : List (String × Record α) → String → Record α → List (String × Record α)
  | [], k, v => [(k, v)]
  | kv :: rest, k, v => if kv.1 == k then (k, v) :: rest else kv :: cacheSet rest k v

/-- The `AnnotationTool` instance state: constructor fields plus the mutable
`_recent_hashes` deque, `_current_task` slot and `_task_iterator` (modelled by
its resumption position into `data_source`). -/
structure Tool (α : Type) where
  data_source : List α
  username : String
  cache : List (String × Record α)
  routing_func : α → String → Bool
  recent_history_size : Nat
  hash_func : α → String
  recent_hashes : List String
  current_task : Option α
  task_iterator : Option Nat

/-- `AnnotationTool.__init__`: empty cache file, empty recent history, no
current task, no iterator. -/
def mkTool (ds : List α) (user : String) (routing : α → String → Bool)
    (histSize : Nat) (hash : α → String) : Tool α :=
  ⟨ds, user, [], routing, histSize, hash, [], none, none⟩

/-- `AnnotationTool._cache_key`: `f"{self.username}:{example_hash}"`. -/
def Tool.cacheKey (t : Tool α) (ex : α) : String :=
  t.username ++ ":" ++ t.hash_func ex

/-- The filter of `get_tasks()`: routed to this user and no record under the
cache key of the task. -/
def pendingB (t : Tool α) (ex : α) : Bool :=
  t.routing_func ex t.username && (cacheGet t.cache (t.cacheKey ex)).isNone

/-- One `next()` on the `get_tasks()` generator resumed at position `pos`,
where `l` is the remaining suffix of the data source: yields the first
pending task together with the position just after it. -/
def scanFrom (t : Tool α) : List α → Nat → Option (α × Nat)
  | [], _ => none
  | x :: xs, pos => if pendingB t x then some (x, pos + 1) else scanFrom t xs (pos + 1)

/-- `AnnotationTool.get_current_task`: returns the cached current task, or
pulls the next one from the (possibly fresh) iterator; on `StopIteration`
clears both the slot and the iterator. Returns the result together with the
updated tool state. -/
def get_current_task (t : Tool α) : Option α × Tool α :=
  match t.current_task with
  | some c => (some c, t)
  | none =>
    let pos := t.task_iterator.getD 0
    match scanFrom t (t.data_source.drop pos) pos with
    | some (x, q) => (some x, { t with current_task := some x, task_iterator := some q })
    | none => (none, { t with current_task := none, task_iterator := none })

/-- `AnnotationTool.annotate`: preserve `creation_date` of an existing record,
stamp `annotation_date` with the current time, write the record, update the
bounded recent-history deque (remove the key if present, append, evict from
the left past `recent_history_size`), and clear the current-task slot exactly
when the annotated key equals the key of the current task. -/
def annotate (t : Tool α) (ex : α) (lab : String) (meta : List (String × String))
    (now : Nat) : Tool α :=
  let key := t.cacheKey ex
  let existing := cacheGet t.cache key
  let creation := match existing with
    | some r => r.creation_date
    | none => now
  let record : Record α :=
    ⟨t.hash_func ex, ex, t.username, lab, creation, now, meta⟩
  let newCache := cacheSet t.cache key record
  let rh1 := if t.recent_hashes.contains key then t.recent_hashes.erase key else t.recent_hashes
  let rh2 := rh1 ++ [key]
  let rh3 := rh2.drop (rh2.length - t.recent_history_size)
  let newCur : Option α := match t.current_task with
    | none => none
    | some c => if t.cacheKey c == key then none else some c
  { t with cache := newCache, recent_hashes := rh3, current_task := newCur }

/-- Resolution loop of `get_recent_tasks`: for each remembered entry `h` the
source recomputes the lookup key as `f"{self.username}:{example_hash}"`
(prefixing the username onto the entry) and, when a record is found, reads
`record["original_example"]` from the stored dict. -/
def getRecentTasksAux (t : Tool α) : List String → List α → Except String (List α)
  | [], acc => .ok acc
  | h :: hs, acc =>
    match cacheGet t.cache (t.username ++ ":" ++ h) with
    | none => getRecentTasksAux t hs acc
    | some r =>
      match r.dumpGet "original_example" with
      | some (.vTask ex) => getRecentTasksAux t hs (acc ++ [ex])
      | _ => .error "KeyError: original_example"

/-- `AnnotationTool.get_recent_tasks`: take the last `limit` remembered hashes
(`list[-limit:]`, which is the whole list when `limit == 0`), reverse to
most-recent-first, and resolve each. -/
def get_recent_tasks (t : Tool α) (limit : Option Nat) : Except String (List α) :=
  let lim := limit.getD t.recent_history_size
  let hs := if lim = 0 then t.recent_hashes
    else t.recent_hashes.drop (t.recent_hashes.length - lim)
  getRecentTasksAux t hs.reverse []

/-- Result of `get_progress`. -/
structure Progress where
  total : Nat
  completed : Nat
  remaining : Nat
  percent_complete : ℚ
deriving DecidableEq, Repr

/-- Rounding to two decimal places, modelled over `ℚ` as rounding `q * 100` to
the nearest integer. -/
def round2 (q : ℚ) : ℚ :=
  (round (q * 100) : ℤ) / 100

/-- The `completed` counting loop of `get_progress`: skip unrouted tasks,
count those whose cache key is present. -/
def completedLoop (t : Tool α) : List α → Nat
  | [] => 0
  | ex :: rest =>
    (if t.routing_func ex t.username && (cacheGet t.cache (t.cacheKey ex)).isSome
     then 1 else 0) + completedLoop t rest

/-- `AnnotationTool.get_progress`. -/
def get_progress (t : Tool α) : Progress :=
  let total := (t.data_source.filter (fun ex => t.routing_func ex t.username)).length
  let completed := completedLoop t t.data_source
  let remaining := total - completed
  let percent := if total > 0 then round2 ((completed : ℚ) / (total : ℚ) * 100) else 0
  ⟨total, completed, remaining, percent⟩

/-- `_iter_annotations()` with `username=None`: every stored record, in cache
iteration order. -/
def iterAnnotations (t : Tool α) : List (Record α) :=
  t.cache.map (fun kv => kv.2)

/-- The dedup key the code extracts on each side of the anti-join:
`pl.col("metadata").struct.field("example_hash")`, i.e. the `example_hash`
entry of the metadata mapping of the record (not the top-level record field
`example_hash`). -/
def codeDedupKey (r : Record α) : Option String :=
  r.metadata.lookup "example_hash"

/-- `get_annotations(dedup=upstream)` for an in-memory upstream collection of
records: mirrors the failure modes of the source (an empty frame has no `metadata`
column; `struct.field` fails when the metadata mapping of no row carries the field)
and otherwise anti-joins on `codeDedupKey`, where a row whose key is null
matches nothing and is kept. -/
def getAnnotationsDedup (t : Tool α) (upstream : List (Record α)) :
    Except String (List (Record α)) :=
  let lcl := iterAnnotations t
  if upstream.isEmpty then
    .error "dedup source must have metadata column containing example_hash"
  else if lcl.isEmpty then
    .error "Current annotations missing metadata column - cannot deduplicate"
  else if lcl.all (fun r => (codeDedupKey r).isNone) then
    .error "struct field example_hash not found in metadata"
  else if upstream.all (fun r => (codeDedupKey r).isNone) then
    .error "struct field example_hash not found in metadata"
  else
    .ok (lcl.filter (fun r =>
      match codeDedupKey r with
      | none => true
      | some h => !(upstream.any (fun u => codeDedupKey u == some h))))

/-- The set-difference the spec describes: keep exactly the local records
whose task-identity digest (top-level `example_hash`) does not appear among
the digests of the upstream records. -/
def dedupBySpec (lcl upstream : List (Record α)) : List (Record α) :=
  lcl.filter (fun r => !(upstream.any (fun u => u.example_hash == r.example_hash)))

/-- Spec-side `total`: count of tasks the routing predicate assigns to the
active user. -/
def totalBySpec (t : Tool α) : Nat :=
  t.data_source.countP (fun ex => t.routing_func ex t.username)

/-- Spec-side `completed`: count of routed tasks with an existing store record
under their cache key. -/
def completedBySpec (t : Tool α) : Nat :=
  t.data_source.countP
    (fun ex => t.routing_func ex t.username && (cacheGet t.cache (t.cacheKey ex)).isSome)

/-- One recorded `annotate` call: the task, the label, the metadata and the
wall-clock instant of the call. -/
structure Call (α : Type) where
  ex : α
  lab : String
  meta : List (String × String)
  now : Nat

/-- Run a sequence of `annotate` calls. -/
def runAnnotations (t : Tool α) : List (Call α) → Tool α
  | [] => t
  | c :: cs => runAnnotations (annotate t c.ex c.lab c.meta c.now) cs

/-- Wall-clock sanity for a run: the call timestamps are non-decreasing and
every record already in the store was written no later than any of the calls. -/
def ClockOK (t : Tool α) (calls : List (Call α)) : Prop :=
  List.Pairwise (fun a b => a.now ≤ b.now) calls ∧
  ∀ kv ∈ t.cache, ∀ c ∈ calls, kv.2.annotation_date ≤ c.now

/-- The cursor invariant, established by `mkTool` and preserved by every
operation: when no task is cached, everything strictly before the iterator
position has been filtered out for good; when a task is cached, it is pending,
it sits immediately before the iterator position, and every pending task in
the already-scanned prefix shares its cache key. -/
def Inv (t : Tool α) : Prop :=
  match t.current_task, t.task_iterator with
  | none, none => True
  | none, some p => ∀ ex ∈ t.data_source.take p, pendingB t ex = false
  | some _, none => False
  | some c, some p =>
      pendingB t c = true ∧ 0 < p ∧ t.data_source[p - 1]? = some c ∧
      ∀ ex ∈ t.data_source.take p, pendingB t ex = true → t.cacheKey ex = t.cacheKey c

/-- `n` further `get_current_task` calls, keeping only the final state. -/
def repeatCurrent (t : Tool α) : Nat → Tool α
  | 0 => t
  | n + 1 => repeatCurrent (get_current_task t).snd n

instance instDecidableInv [DecidableEq α] (t : Tool α) : Decidable (Inv t) :=
  match h1 : t.current_task, h2 : t.task_iterator with
  | none, none => .isTrue (by simp [Inv, h1, h2])
  | none, some p =>
      decidable_of_iff (∀ ex ∈ t.data_source.take p, pendingB t ex = false)
        (by simp [Inv, h1, h2])
  | some _, none => .isFalse (by simp [Inv, h1, h2])
  | some c, some p =>
      decidable_of_iff
        (pendingB t c = true ∧ 0 < p ∧ t.data_source[p - 1]? = some c ∧
          ∀ ex ∈ t.data_source.take p, pendingB t ex = true → t.cacheKey ex = t.cacheKey c)
        (by simp [Inv, h1, h2])

section CacheLemmas

variable {α : Type}

theorem cacheGet_set (cache : List (String × Record α)) (k : String) (v : Record α)
    (k' : String) :
    cacheGet (cacheSet cache k v) k' = if k' = k then some v else cacheGet cache k' := by
  induction cache with
  | nil =>
    by_cases h : k' = k
    · simp [cacheGet, cacheSet, h]
    · simp [cacheGet, cacheSet, h, Ne.symm h]
  | cons kv rest ih =>
    simp only [cacheSet]
    by_cases h1 : kv.1 = k
    · rw [if_pos (by simpa using h1)]
      by_cases h2 : k' = k
      · simp [cacheGet, h1, h2]
      · simp [cacheGet, h1, h2, Ne.symm h2]
    · rw [if_neg (by simpa using h1)]
      by_cases h2 : k' = k
      · subst h2
        simp [cacheGet, h1, ih]
      · by_cases h3 : kv.1 = k' <;> simp [cacheGet, h2, h3, ih]

theorem mem_cacheSet {cache : List (String × Record α)} {k : String} {v : Record α}
    {kv : String × Record α} (h : kv ∈ cacheSet cache k v) : kv = (k, v) ∨ kv ∈ cache := by
  induction cache with
  | nil => simpa [cacheSet] using h
  | cons hd rest ih =>
    simp only [cacheSet] at h
    by_cases h1 : hd.1 = k
    · rw [if_pos (by simpa using h1)] at h
      rcases List.mem_cons.mp h with h' | h'
      · exact Or.inl h'
      · exact Or.inr (List.mem_cons_of_mem _ h')
    · rw [if_neg (by simpa using h1)] at h
      rcases List.mem_cons.mp h with h' | h'
      · exact Or.inr (h' ▸ List.mem_cons_self _ _)
      · rcases ih h' with h'' | h''
        · exact Or.inl h''
        · exact Or.inr (List.mem_cons_of_mem _ h'')

theorem cacheGet_some_mem {cache : List (String × Record α)} {k : String} {r : Record α}
    (h : cacheGet cache k = some r) : (k, r) ∈ cache := by
  induction cache with
  | nil => simp [cacheGet] at h
  | cons kv rest ih =>
    simp only [cacheGet] at h
    by_cases h1 : kv.1 = k
    · rw [if_pos (by simpa using h1)] at h
      have : kv = (k, r) := by
        rcases kv with ⟨k1, r1⟩
        simp only [Option.some.injEq] at h
        simp only at h1
        simp [h1, h]
      exact this ▸ List.mem_cons_self _ _
    · rw [if_neg (by simpa using h1)] at h
      exact List.mem_cons_of_mem _ (ih h)

end CacheLemmas

section ScanLemmas

variable {α : Type}

theorem scanFrom_congr {t t' : Tool α} (h : ∀ x, pendingB t x = pendingB t' x)
    (l : List α) (pos : Nat) : scanFrom t l pos = scanFrom t' l pos := by
  induction l generalizing pos with
  | nil => rfl
  | cons x xs ih => simp only [scanFrom, h x, ih]

theorem scanFrom_eq_none_iff (t : Tool α) (l : List α) (pos : Nat) :
    scanFrom t l pos = none ↔ ∀ x ∈ l, pendingB t x = false := by
  induction l generalizing pos with
  | nil => simp [scanFrom]
  | cons x xs ih =>
    by_cases h : pendingB t x
    · simp [scanFrom, h]
    · simp only [Bool.not_eq_true] at h
      simp [scanFrom, h, ih (pos + 1)]

theorem scanFrom_map_fst (t : Tool α) (l : List α) (pos : Nat) :
    (scanFrom t l pos).map Prod.fst = l.find? (pendingB t) := by
  induction l generalizing pos with
  | nil => simp [scanFrom]
  | cons x xs ih =>
    by_cases h : pendingB t x
    · simp [scanFrom, h, List.find?_cons_of_pos]
    · simp only [Bool.not_eq_true] at h
      rw [List.find?_cons_of_neg _ (by simp [h])]
      simp [scanFrom, h, ih (pos + 1)]

theorem scanFrom_some {t : Tool α} {l : List α} {pos : Nat} {x : α} {q : Nat}
    (h : scanFrom t l pos = some (x, q)) :
    pendingB t x = true ∧ pos < q ∧ q ≤ pos + l.length ∧ l[q - pos - 1]? = some x ∧
      ∀ y ∈ l.take (q - pos - 1), pendingB t y = false := by
  induction l generalizing pos with
  | nil => simp [scanFrom] at h
  | cons z zs ih =>
    by_cases hp : pendingB t z
    · rw [scanFrom, if_pos hp] at h
      obtain ⟨hx, hq⟩ : z = x ∧ pos + 1 = q := by
        simpa using h
      subst hx
      subst hq
      simp [hp]
    · rw [scanFrom, if_neg hp] at h
      obtain ⟨h1, h2, h3, h4, h5⟩ := ih h
      simp only [Bool.not_eq_true] at hp
      refine ⟨h1, by omega, by simp; omega, ?_, ?_⟩
      · have heq : q - pos - 1 = (q - (pos + 1) - 1) + 1 := by omega
        rw [heq, List.getElem?_cons_succ]
        exact h4
      · have heq : q - pos - 1 = (q - (pos + 1) - 1) + 1 := by omega
        rw [heq, List.take_succ_cons]
        intro y hy
        rcases List.mem_cons.mp hy with h' | h'
        · exact h' ▸ hp
        · exact h5 y h'

end ScanLemmas

section AnnotateLemmas

variable {α : Type}

theorem data_source_annotate (t : Tool α) (ex : α) (lab : String)
    (meta : List (String × String)) (now : Nat) :
    (annotate t ex lab meta now).data_source = t.data_source := rfl

theorem task_iterator_annotate (t : Tool α) (ex : α) (lab : String)
    (meta : List (String × String)) (now : Nat) :
    (annotate t ex lab meta now).task_iterator = t.task_iterator := rfl

theorem cacheKey_annotate (t : Tool α) (ex : α) (lab : String)
    (meta : List (String × String)) (now : Nat) (y : α) :
    (annotate t ex lab meta now).cacheKey y = t.cacheKey y := rfl

theorem cache_annotate (t : Tool α) (ex : α) (lab : String)
    (meta : List (String × String)) (now : Nat) :
    (annotate t ex lab meta now).cache
      = cacheSet t.cache (t.cacheKey ex)
          ⟨t.hash_func ex, ex, t.username, lab,
            (match cacheGet t.cache (t.cacheKey ex) with
              | some r => r.creation_date
              | none => now),
            now, meta⟩ := rfl

theorem current_task_annotate (t : Tool α) (ex : α) (lab : String)
    (meta : List (String × String)) (now : Nat) :
    (annotate t ex lab meta now).current_task
      = match t.current_task with
        | none => none
        | some c => if t.cacheKey c == t.cacheKey ex then none else some c := rfl

theorem pendingB_annotate (t : Tool α) (ex0 : α) (lab : String)
    (meta : List (String × String)) (now : Nat) (y : α) :
    pendingB (annotate t ex0 lab meta now) y
      = (pendingB t y && !(t.cacheKey y == t.cacheKey ex0)) := by
  have hroute : (annotate t ex0 lab meta now).routing_func = t.routing_func := rfl
  have huser : (annotate t ex0 lab meta now).username = t.username := rfl
  by_cases hk : t.cacheKey y = t.cacheKey ex0
  · simp [pendingB, hroute, huser, cacheKey_annotate, cache_annotate, cacheGet_set, hk]
  · simp [pendingB, hroute, huser, cacheKey_annotate, cache_annotate, cacheGet_set, hk]

end AnnotateLemmas

section InvLemmas

variable {α : Type}

theorem inv_iff (t : Tool α) :
    Inv t ↔
      ((t.current_task = none ∧ t.task_iterator = none)
        ∨ (∃ p, t.current_task = none ∧ t.task_iterator = some p ∧
            ∀ ex ∈ t.data_source.take p, pendingB t ex = false)
        ∨ (∃ c p, t.current_task = some c ∧ t.task_iterator = some p ∧
            pendingB t c = true ∧ 0 < p ∧ t.data_source[p - 1]? = some c ∧
            ∀ ex ∈ t.data_source.take p, pendingB t ex = true →
              t.cacheKey ex = t.cacheKey c)) := by
  unfold Inv
  rcases hcur : t.current_task with _ | c <;> rcases hit : t.task_iterator with _ | p <;>
    simp [hcur, hit]

theorem inv_mkTool (ds : List α) (u : String) (r : α → String → Bool) (m : Nat)
    (h : α → String) : Inv (mkTool ds u r m h) :=
  trivial

theorem inv_annotate {t : Tool α} (hI : Inv t) (ex : α) (lab : String)
    (meta : List (String × String)) (now : Nat) :
    Inv (annotate t ex lab meta now) := by
  rw [inv_iff] at hI ⊢
  simp only [current_task_annotate, task_iterator_annotate, data_source_annotate,
    cacheKey_annotate, pendingB_annotate]
  rcases hI with ⟨h1, h2⟩ | ⟨p, h1, h2, h3⟩ | ⟨c, p, h1, h2, h3, h4, h5, h6⟩
  · exact Or.inl ⟨by simp [h1], h2⟩
  · refine Or.inr (Or.inl ⟨p, by simp [h1], h2, ?_⟩)
    intro y hy
    rw [h3 y hy, Bool.false_and]
  · by_cases hk : (t.cacheKey c == t.cacheKey ex) = true
    · refine Or.inr (Or.inl ⟨p, by simp [h1, hk], h2, ?_⟩)
      intro y hy
      by_cases hpy : pendingB t y = true
      · rw [hpy, Bool.true_and, h6 y hy hpy]
        simp only [beq_iff_eq] at hk
        simp [hk]
      · simp only [Bool.not_eq_true] at hpy
        rw [hpy, Bool.false_and]
    · refine Or.inr (Or.inr ⟨c, p, by simp [h1, hk], h2, ?_, h4, h5, ?_⟩)
      · rw [h3, Bool.true_and]
        simp [hk]
      · intro y hy hpy
        rw [Bool.and_eq_true] at hpy
        exact h6 y hy hpy.1

theorem step_preserves (t : Tool α) :
    (get_current_task t).snd.cache = t.cache
    ∧ (get_current_task t).snd.data_source = t.data_source
    ∧ (get_current_task t).snd.username = t.username
    ∧ (get_current_task t).snd.hash_func = t.hash_func
    ∧ (get_current_task t).snd.routing_func = t.routing_func
    ∧ (get_current_task t).snd.recent_hashes = t.recent_hashes
    ∧ (get_current_task t).snd.recent_history_size = t.recent_history_size := by
  rcases hcur : t.current_task with _ | c
  · rcases hscan : scanFrom t (t.data_source.drop (t.task_iterator.getD 0))
        (t.task_iterator.getD 0) with _ | ⟨x, q⟩ <;>
      simp [get_current_task, hcur, hscan]
  · simp [get_current_task, hcur]

theorem pendingB_step (t : Tool α) (y : α) :
    pendingB (get_current_task t).snd y = pendingB t y := by
  obtain ⟨hc, _, hu, hh, hr, _, _⟩ := step_preserves t
  simp [pendingB, Tool.cacheKey, hc, hu, hh, hr]

theorem cacheKey_step (t : Tool α) (y : α) :
    (get_current_task t).snd.cacheKey y = t.cacheKey y := by
  obtain ⟨_, _, hu, hh, _, _, _⟩ := step_preserves t
  simp [Tool.cacheKey, hu, hh]

theorem current_some_of_fst {t : Tool α} {c : α} (hc : (get_current_task t).fst = some c) :
    (get_current_task t).snd.current_task = some c := by
  rcases hcur : t.current_task with _ | c'
  · rcases hscan : scanFrom t (t.data_source.drop (t.task_iterator.getD 0))
        (t.task_iterator.getD 0) with _ | ⟨x, q⟩ <;>
      simp_all [get_current_task, hcur, hscan]
  · simp_all [get_current_task, hcur]

theorem exhausted_spec {t : Tool α} (hI : Inv t) (h : (get_current_task t).fst = none) :
    (get_current_task t).snd
        = { t with current_task := none, task_iterator := none }
      ∧ ∀ x ∈ t.data_source, pendingB t x = false := by
  rcases hcur : t.current_task with _ | c
  · rcases hscan : scanFrom t (t.data_source.drop (t.task_iterator.getD 0))
        (t.task_iterator.getD 0) with _ | ⟨x, q⟩
    · refine ⟨by simp [get_current_task, hcur, hscan], ?_⟩
      have hsuffix := (scanFrom_eq_none_iff t _ _).mp hscan
      rcases hit : t.task_iterator with _ | p
      · intro x hx
        exact hsuffix x (by simpa [hit] using hx)
      · intro x hx
        rw [← List.take_append_drop p t.data_source] at hx
        rcases List.mem_append.mp hx with h' | h'
        · rw [inv_iff] at hI
          rcases hI with ⟨_, h2⟩ | ⟨p', h1, h2, h3⟩ | ⟨c, p', h1, h2, h3, h4, h5, h6⟩
          · rw [hit] at h2
            exact absurd h2 (by simp)
          · rw [hit] at h2
            obtain rfl : p = p' := by simpa using h2
            exact h3 x h'
          · rw [hcur] at h1
            exact absurd h1 (by simp)
        · exact hsuffix x (by simpa [hit] using h')
    · exact absurd h (by simp [get_current_task, hcur, hscan])
  · exact absurd h (by simp [get_current_task, hcur])

theorem fixedpoint_exhausted {t : Tool α} (hcur : t.current_task = none)
    (hit : t.task_iterator = none) (hall : ∀ x ∈ t.data_source, pendingB t x = false) :
    get_current_task t = (none, t) := by
  have hscan : scanFrom t t.data_source 0 = none := by
    rw [scanFrom_eq_none_iff]
    exact hall
  have heta : { t with current_task := (none : Option α), task_iterator := (none : Option Nat) }
      = t := by
    rcases t with ⟨ds, u, cache, r, m, hsh, rh, cur, it⟩
    simp only at hcur hit
    simp [hcur, hit]
  simp [get_current_task, hcur, hit, hscan, heta]

theorem get_current_task_of_some {u : Tool α} {c : α} (h : u.current_task = some c) :
    get_current_task u = (some c, u) := by
  simp [get_current_task, h]

theorem get_current_task_of_none {u : Tool α} {p : Nat} (hcur : u.current_task = none)
    (hit : u.task_iterator = some p) :
    get_current_task u
      = match scanFrom u (u.data_source.drop p) p with
        | some (x, q) => (some x, { u with current_task := some x, task_iterator := some q })
        | none => (none, { u with current_task := none, task_iterator := none }) := by
  simp [get_current_task, hcur, hit]

theorem inv_step {t : Tool α} (hI : Inv t) : Inv (get_current_task t).snd := by
  rcases hc : (get_current_task t).fst with _ | c
  · obtain ⟨hsnd, _⟩ := exhausted_spec hI hc
    rw [hsnd, inv_iff]
    exact Or.inl ⟨rfl, rfl⟩
  · rcases hcur : t.current_task with _ | c'
    · rcases hscan : scanFrom t (t.data_source.drop (t.task_iterator.getD 0))
          (t.task_iterator.getD 0) with _ | ⟨x, q⟩
      · exact absurd hc (by simp [get_current_task, hcur, hscan])
      · have hsnd : (get_current_task t).snd
            = { t with current_task := some x, task_iterator := some q } := by
          simp [get_current_task, hcur, hscan]
        obtain ⟨hpx, hlt, hle, hget, hpre⟩ := scanFrom_some hscan
        set pos := t.task_iterator.getD 0 with hpos
        rw [hsnd, inv_iff]
        refine Or.inr (Or.inr ⟨x, q, rfl, rfl, ?_, by omega, ?_, ?_⟩)
        · show pendingB { t with current_task := some x, task_iterator := some q } x = true
          have : pendingB { t with current_task := some x, task_iterator := some q } x
              = pendingB t x := rfl
          rw [this, hpx]
        · show t.data_source[q - 1]? = some x
          rw [List.getElem?_drop] at hget
          have : pos + (q - pos - 1) = q - 1 := by omega
          rwa [this] at hget
        · intro y hy hpy
          have hpy' : pendingB t y = true := hpy
          show t.cacheKey y = t.cacheKey x
          have hsplit : t.data_source.take q
              = t.data_source.take pos ++ (t.data_source.drop pos).take (q - pos) := by
            conv_lhs => rw [show q = pos + (q - pos) by omega]
            rw [List.take_add]
          rw [hsplit] at hy
          rcases List.mem_append.mp hy with h' | h'
          · exfalso
            rcases hit : t.task_iterator with _ | p
            · rw [hit] at hpos
              simp only [Option.getD_none] at hpos
              rw [hpos] at h'
              simp at h'
            · rw [inv_iff] at hI
              rcases hI with ⟨_, h2⟩ | ⟨p', h1, h2, h3⟩ | ⟨cc, p', h1, h2, h3, h4, h5, h6⟩
              · rw [hit] at h2
                exact absurd h2 (by simp)
              · rw [hit] at h2
                obtain rfl : p = p' := by simpa using h2
                have : pos = p := by rw [hpos, hit]; rfl
                rw [this] at h'
                rw [h3 y h'] at hpy'
                exact absurd hpy' (by simp)
              · rw [hcur] at h1
                exact absurd h1 (by simp)
          · have hts : (t.data_source.drop pos).take (q - pos)
                = (t.data_source.drop pos).take (q - pos - 1)
                  ++ ((t.data_source.drop pos)[q - pos - 1]?).toList := by
              conv_lhs => rw [show q - pos = (q - pos - 1) + 1 by omega]
              rw [List.take_succ]
            rw [hts] at h'
            rcases List.mem_append.mp h' with h'' | h''
            · rw [hpre y h''] at hpy'
              exact absurd hpy' (by simp)
            · rw [hget] at h''
              simp only [Option.toList_some, List.mem_singleton] at h''
              rw [h'']
    · have hsnd : (get_current_task t).snd = t := by simp [get_current_task, hcur]
      rw [hsnd]
      exact hI

end InvLemmas

section Demo

/-- Demo routing predicate: every task is assigned to every user (the
`default_routing_func`). -/
def demoRoute : Nat → String → Bool := fun _ _ => true

/-- Demo hash function: the decimal representation of the task. -/
def demoHash : Nat → String := fun n => toString n

/-- A fresh five-task tool for user `alice`. -/
def tool0 : Tool Nat := mkTool [0, 1, 2, 3, 4] "alice" demoRoute 5 demoHash

/-- One turn of the documented polling loop: read the current task and
annotate it. -/
def stepAnnotate (t : Tool Nat) (now : Nat) : Tool Nat :=
  match get_current_task t with
  | (some c, t1) => annotate t1 c "label" [] now
  | (none, t1) => t1

/-- `tool0` after annotating the first three tasks in cursor order. -/
def tool3 : Tool Nat := stepAnnotate (stepAnnotate (stepAnnotate tool0 1) 2) 3

/-- The state reached by `get_current_task` on the fresh tool: current task 0,
iterator just past it. -/
def toolCur : Tool Nat := (get_current_task tool0).snd

/-- A single-task tool whose only task has been annotated: the cursor is
exhausted. -/
def toolDone : Tool Nat := stepAnnotate (mkTool [0] "alice" demoRoute 5 demoHash) 1

/-- A hash function whose digests can themselves contain the `user:` shape. -/
def advHash : Nat → String := fun n => if n = 0 then "x" else "u:x"

/-- Two annotations under `advHash`: the full cache key of the second record
is the username-prefixed form of the recent-history entry of the first. -/
def toolAdv : Tool Nat :=
  annotate (annotate (mkTool [0, 1] "u" demoRoute 5 advHash) 0 "a" [] 1) 1 "b" [] 2

/-- Digest function `h0`, `h1`, ... for the dedup scenario. -/
def hashH : Nat → String := fun n => "h" ++ toString n

/-- Five tasks annotated with empty metadata (the way the tests of the
tests call `annotate`). -/
def tool5 : Tool Nat :=
  annotate (annotate (annotate (annotate (annotate
    (mkTool [0, 1, 2, 3, 4] "alice" demoRoute 5 hashH) 0 "l" [] 1) 1 "l" [] 2)
    2 "l" [] 3) 3 "l" [] 4) 4 "l" [] 5

/-- An upstream set holding the first three local records — and hence the
task-identity digests `h0`, `h1`, `h2` (in their `example_hash` field). -/
def upstream3 : List (Record Nat) := (iterAnnotations tool5).take 3

/-- A tool whose recent-history buffer is at its capacity of two. -/
def toolRH : Tool Nat :=
  { mkTool [0, 1, 2] "alice" demoRoute 2 demoHash with
      recent_hashes := ["alice:0", "alice:1"] }

/-- A one-record tool for the date-invariant run. -/
def tool7 : Tool Nat := annotate (mkTool [0] "u" demoRoute 5 demoHash) 0 "a" [] 1

/-- Two further saves to the same key at later instants. -/
def calls7 : List (Call Nat) := [⟨0, "b", [], 5⟩, ⟨0, "c", [], 7⟩]

end Demo

section Claims

variable {α : Type}

/-- C1: for every tool state (any state satisfying the cursor invariant, which
holds initially and is preserved by every operation), calling
`get_current_task` twice with no intervening `annotate` returns the same task
both times, including the absent case. -/
theorem current_task_stable_under_double_read (t : Tool α) (hI : Inv t) :
    (get_current_task ((get_current_task t).snd)).fst = (get_current_task t).fst := by
  rcases hc : (get_current_task t).fst with _ | c
  · obtain ⟨hsnd, hall⟩ := exhausted_spec hI hc
    rw [hsnd]
    rw [fixedpoint_exhausted (t := { t with current_task := none, task_iterator := none })
      rfl rfl (fun x hx => hall x hx)]
  · have hcur2 := current_some_of_fst hc
    rw [get_current_task_of_some hcur2]

/-- Witness for C1 at the fresh five-task tool. -/
theorem current_task_stable_under_double_read_witness :
    (get_current_task ((get_current_task tool0).snd)).fst = (get_current_task tool0).fst :=
  current_task_stable_under_double_read tool0 (by decide)

/-- C3: annotating a task whose cache key differs from the cached current
key of the cached current task leaves it unchanged, and a subsequent
`get_current_task` still returns it. -/
theorem annotate_other_key_keeps_current (t : Tool α) (c : α) (hc : t.current_task = some c)
    (ex : α) (lab : String) (meta : List (String × String)) (now : Nat)
    (hne : t.cacheKey ex ≠ t.cacheKey c) :
    (annotate t ex lab meta now).current_task = some c
    ∧ (get_current_task (annotate t ex lab meta now)).fst = some c := by
  have h1 : (annotate t ex lab meta now).current_task = some c := by
    rw [current_task_annotate, hc]
    simp [Ne.symm hne]
  exact ⟨h1, by simp [get_current_task, h1]⟩

/-- Witness for C3: with task 0 current, annotating task 2 (key `alice:2`,
different from `alice:0`) leaves task 0 current. -/
theorem annotate_other_key_keeps_current_witness :
    (annotate toolCur 2 "x" [] 7).current_task = some 0
    ∧ (get_current_task (annotate toolCur 2 "x" [] 7)).fst = some 0 :=
  annotate_other_key_keeps_current toolCur 0 rfl 2 "x" [] 7 (by decide)

theorem find?_append_left_none {l1 l2 : List α} {f : α → Bool}
    (h : ∀ y ∈ l1, f y = false) : (l1 ++ l2).find? f = l2.find? f := by
  induction l1 with
  | nil => rfl
  | cons x xs ih =>
    rw [List.cons_append, List.find?_cons_of_neg _ (by simp [h x (List.mem_cons_self x xs)]),
      ih (fun y hy => h y (List.mem_cons_of_mem _ hy))]

/-- C2: after annotating the current task `c`, the next `get_current_task`
returns the first task in data-source order that is routed and unannotated in
the post-annotate store (absent if none remains); the scan resumes at the
iterator position `p` — the position just after `c` — rather than restarting
from position 0. -/
theorem next_task_after_annotating_current (t : Tool α) (hI : Inv t) (c : α)
    (hc : (get_current_task t).fst = some c) (lab : String)
    (meta : List (String × String)) (now : Nat) :
    (get_current_task (annotate (get_current_task t).snd c lab meta now)).fst
        = (annotate (get_current_task t).snd c lab meta now).data_source.find?
            (pendingB (annotate (get_current_task t).snd c lab meta now))
    ∧ (annotate (get_current_task t).snd c lab meta now).task_iterator
        = (get_current_task t).snd.task_iterator
    ∧ ∃ p, (get_current_task t).snd.task_iterator = some p
        ∧ (get_current_task t).snd.data_source[p - 1]? = some c
        ∧ (get_current_task (annotate (get_current_task t).snd c lab meta now)).fst
            = (scanFrom (annotate (get_current_task t).snd c lab meta now)
                ((annotate (get_current_task t).snd c lab meta now).data_source.drop p) p).map
                Prod.fst := by
  have hI1 : Inv (get_current_task t).snd := inv_step hI
  have hcur1 : (get_current_task t).snd.current_task = some c := current_some_of_fst hc
  rw [inv_iff] at hI1
  rcases hI1 with ⟨h1, _⟩ | ⟨p, h1, _, _⟩ | ⟨c', p, h1, h2, h3, h4, h5, h6⟩
  · rw [hcur1] at h1
    exact absurd h1 (by simp)
  · rw [hcur1] at h1
    exact absurd h1 (by simp)
  · have hcc : c = c' := by
      rw [hcur1] at h1
      exact Option.some.inj h1
    subst hcc
    have hcur2 : (annotate (get_current_task t).snd c lab meta now).current_task = none := by
      rw [current_task_annotate, hcur1]
      simp
    have hit2 : (annotate (get_current_task t).snd c lab meta now).task_iterator = some p := by
      rw [task_iterator_annotate, h2]
    have hpre2 : ∀ y ∈ (annotate (get_current_task t).snd c lab meta now).data_source.take p,
        pendingB (annotate (get_current_task t).snd c lab meta now) y = false := by
      intro y hy
      rw [data_source_annotate] at hy
      rw [pendingB_annotate]
      by_cases hpy : pendingB (get_current_task t).snd y = true
      · rw [hpy, Bool.true_and, h6 y hy hpy]
        simp
      · simp only [Bool.not_eq_true] at hpy
        rw [hpy, Bool.false_and]
    have hfst : (get_current_task (annotate (get_current_task t).snd c lab meta now)).fst
        = (scanFrom (annotate (get_current_task t).snd c lab meta now)
            ((annotate (get_current_task t).snd c lab meta now).data_source.drop p) p).map
            Prod.fst := by
      rw [get_current_task_of_none hcur2 hit2]
      rcases hscan : scanFrom (annotate (get_current_task t).snd c lab meta now)
          ((annotate (get_current_task t).snd c lab meta now).data_source.drop p) p
          with _ | ⟨x, q⟩ <;>
        simp [hscan]
    refine ⟨?_, task_iterator_annotate _ _ _ _ _, p, h2, h5, hfst⟩
    rw [hfst, scanFrom_map_fst]
    conv_rhs =>
      rw [← List.take_append_drop p
        (annotate (get_current_task t).snd c lab meta now).data_source]
    rw [find?_append_left_none hpre2]

/-- Witness for C2 at the fresh five-task tool: after annotating current task
0, the next current task is task 1 and the iterator stays at position 1. -/
theorem next_task_after_annotating_current_witness :
    (get_current_task (annotate (get_current_task tool0).snd 0 "l" [] 9)).fst
        = (annotate (get_current_task tool0).snd 0 "l" [] 9).data_source.find?
            (pendingB (annotate (get_current_task tool0).snd 0 "l" [] 9))
    ∧ (annotate (get_current_task tool0).snd 0 "l" [] 9).task_iterator
        = (get_current_task tool0).snd.task_iterator
    ∧ ∃ p, (get_current_task tool0).snd.task_iterator = some p
        ∧ (get_current_task tool0).snd.data_source[p - 1]? = some 0
        ∧ (get_current_task (annotate (get_current_task tool0).snd 0 "l" [] 9)).fst
            = (scanFrom (annotate (get_current_task tool0).snd 0 "l" [] 9)
                ((annotate (get_current_task tool0).snd 0 "l" [] 9).data_source.drop p) p).map
                Prod.fst :=
  next_task_after_annotating_current tool0 (by decide) 0 (by decide) "l" [] 9

/-- C9: once `get_current_task` has returned absent, every later
`get_current_task` (with no intervening `annotate`, the store being local to
the state) also returns absent. -/
theorem absent_is_terminal (t : Tool α) (hI : Inv t)
    (h : (get_current_task t).fst = none) :
    ∀ n, (get_current_task (repeatCurrent (get_current_task t).snd n)).fst = none := by
  obtain ⟨hsnd, hall⟩ := exhausted_spec hI h
  have hfix : get_current_task
      ({ t with current_task := none, task_iterator := none } : Tool α)
      = (none, { t with current_task := none, task_iterator := none }) :=
    fixedpoint_exhausted (t := { t with current_task := none, task_iterator := none })
      rfl rfl (fun x hx => hall x hx)
  have hrep : ∀ n, repeatCurrent
      ({ t with current_task := none, task_iterator := none } : Tool α) n
      = { t with current_task := none, task_iterator := none } := by
    intro n
    induction n with
    | zero => rfl
    | succ n ih => simp only [repeatCurrent, hfix, ih]
  intro n
  rw [hsnd, hrep n, hfix]

/-- Witness for C9: a fully annotated one-task tool stays absent after three
more reads. -/
theorem absent_is_terminal_witness :
    (get_current_task (repeatCurrent (get_current_task toolDone).snd 3)).fst = none :=
  absent_is_terminal toolDone (by decide) (by decide) 3

/-- C6: `get_progress` returns `total` = count of routed tasks, `completed` =
count of routed tasks with a store record under their cache key,
`remaining = total - completed`, and `percent_complete` =
`completed/total*100` rounded to two decimal places, or `0` when `total = 0`. -/
theorem progress_matches_counts (t : Tool α) :
    get_progress t
      = ⟨totalBySpec t, completedBySpec t, totalBySpec t - completedBySpec t,
          if totalBySpec t = 0 then 0
          else round2 ((completedBySpec t : ℚ) / (totalBySpec t : ℚ) * 100)⟩ := by
  have htot : (t.data_source.filter (fun ex => t.routing_func ex t.username)).length
      = totalBySpec t :=
    (List.countP_eq_length_filter _ _).symm
  have hcomp : completedLoop t t.data_source = completedBySpec t := by
    unfold completedBySpec
    induction t.data_source with
    | nil => rfl
    | cons x xs ih =>
      by_cases hx : (t.routing_func x t.username
          && (cacheGet t.cache (t.cacheKey x)).isSome) = true
      · simp [completedLoop, List.countP_cons, hx, ih]
        omega
      · simp [completedLoop, List.countP_cons, hx, ih]
  unfold get_progress
  rw [htot, hcomp]
  have hpc : (if totalBySpec t > 0
      then round2 ((completedBySpec t : ℚ) / (totalBySpec t : ℚ) * 100) else 0)
      = (if totalBySpec t = 0 then 0
         else round2 ((completedBySpec t : ℚ) / (totalBySpec t : ℚ) * 100)) := by
    by_cases h : totalBySpec t = 0
    · simp [h]
    · simp [h, Nat.pos_of_ne_zero h]
  dsimp only
  rw [hpc]

/-- C7: across any run of `annotate` calls under a sane clock, a stored
`creation_date` never changes once set, its `annotation_date` never decreases,
and a first save to a fresh key stamps both dates with the current instant. -/
theorem annotation_dates_invariant :
    (∀ (t : Tool α) (calls : List (Call α)) (key : String) (r : Record α),
        ClockOK t calls → cacheGet t.cache key = some r →
        ∃ r', cacheGet (runAnnotations t calls).cache key = some r'
          ∧ r'.creation_date = r.creation_date ∧ r.annotation_date ≤ r'.annotation_date)
    ∧ (∀ (t : Tool α) (ex : α) (lab : String) (meta : List (String × String)) (now : Nat),
        cacheGet t.cache (t.cacheKey ex) = none →
        cacheGet (annotate t ex lab meta now).cache (t.cacheKey ex)
          = some ⟨t.hash_func ex, ex, t.username, lab, now, now, meta⟩) := by
  constructor
  · intro t calls
    induction calls generalizing t with
    | nil =>
      intro key r _ hr
      exact ⟨r, hr, rfl, le_refl _⟩
    | cons c cs ih =>
      intro key r hck hr
      obtain ⟨hpw, hdates⟩ := hck
      rw [List.pairwise_cons] at hpw
      have hclock' : ClockOK (annotate t c.ex c.lab c.meta c.now) cs := by
        refine ⟨hpw.2, ?_⟩
        intro kv hkv c' hc'
        rw [cache_annotate] at hkv
        rcases mem_cacheSet hkv with h' | h'
        · simpa [h'] using hpw.1 c' hc'
        · exact hdates kv h' c' (List.mem_cons_of_mem _ hc')
      by_cases hkey : key = t.cacheKey c.ex
      · have hsc : cacheGet t.cache (t.cacheKey c.ex) = some r := by
          rw [← hkey]
          exact hr
        have hget' : cacheGet (annotate t c.ex c.lab c.meta c.now).cache key
            = some ⟨t.hash_func c.ex, c.ex, t.username, c.lab,
                r.creation_date, c.now, c.meta⟩ := by
          rw [cache_annotate, cacheGet_set, if_pos hkey, hsc]
        obtain ⟨r', hr', hcre, hann⟩ := ih (annotate t c.ex c.lab c.meta c.now) key _ hclock' hget'
        refine ⟨r', hr', hcre, ?_⟩
        have h1 : r.annotation_date ≤ c.now :=
          hdates (key, r) (cacheGet_some_mem hr) c (List.mem_cons_self _ _)
        exact le_trans h1 hann
      · have hget' : cacheGet (annotate t c.ex c.lab c.meta c.now).cache key = some r := by
          rw [cache_annotate, cacheGet_set, if_neg hkey]
          exact hr
        exact ih (annotate t c.ex c.lab c.meta c.now) key r hclock' hget'
  · intro t ex lab meta now hnone
    rw [cache_annotate, cacheGet_set]
    simp [hnone]

/-- Witness for C7: a record created at instant 1 keeps `creation_date = 1`
through saves at instants 5 and 7, with non-decreasing annotation date; and a
fresh save stamps both dates with the save instant. -/
theorem annotation_dates_invariant_witness :
    (∃ r', cacheGet (runAnnotations tool7 calls7).cache "u:0" = some r'
      ∧ r'.creation_date = (1 : Nat) ∧ (1 : Nat) ≤ r'.annotation_date)
    ∧ cacheGet (annotate (mkTool [0] "u" demoRoute 5 demoHash) 0 "a" [] 1).cache "u:0"
        = some ⟨"0", 0, "u", "a", 1, 1, []⟩ :=
  ⟨(annotation_dates_invariant (α := Nat)).1 tool7 calls7 "u:0" ⟨"0", 0, "u", "a", 1, 1, []⟩
      ⟨by decide, by decide⟩ (by decide),
    (annotation_dates_invariant (α := Nat)).2 (mkTool [0] "u" demoRoute 5 demoHash)
      0 "a" [] 1 (by decide)⟩

/-- C8: the recent-history buffer never exceeds its configured capacity and
never duplicates cache keys; the annotated key always lands in the most-recent
position; re-annotating a key already present does not grow the buffer; and a
fresh key at capacity evicts the oldest entry. -/
theorem recent_history_bounded (t : Tool α) (ex : α) (lab : String)
    (meta : List (String × String)) (now : Nat) :
    (annotate t ex lab meta now).recent_hashes.length ≤ t.recent_history_size
    ∧ (t.recent_hashes.Nodup → (annotate t ex lab meta now).recent_hashes.Nodup)
    ∧ (0 < t.recent_history_size →
        (annotate t ex lab meta now).recent_hashes.getLast? = some (t.cacheKey ex))
    ∧ (t.cacheKey ex ∈ t.recent_hashes → t.recent_hashes.Nodup →
        t.recent_hashes.length ≤ t.recent_history_size →
        (annotate t ex lab meta now).recent_hashes.length = t.recent_hashes.length)
    ∧ (t.cacheKey ex ∉ t.recent_hashes →
        t.recent_hashes.length = t.recent_history_size → 0 < t.recent_history_size →
        (annotate t ex lab meta now).recent_hashes
          = t.recent_hashes.tail ++ [t.cacheKey ex]) := by
  have hrec : (annotate t ex lab meta now).recent_hashes
      = ((if t.recent_hashes.contains (t.cacheKey ex)
            then t.recent_hashes.erase (t.cacheKey ex) else t.recent_hashes) ++ [t.cacheKey ex]).drop
          (((if t.recent_hashes.contains (t.cacheKey ex)
              then t.recent_hashes.erase (t.cacheKey ex) else t.recent_hashes)
            ++ [t.cacheKey ex]).length - t.recent_history_size) := rfl
  have hcontains : t.recent_hashes.contains (t.cacheKey ex) = true ↔
      t.cacheKey ex ∈ t.recent_hashes := List.elem_iff
  refine ⟨?_, ?_, ?_, ?_, ?_⟩
  · rw [hrec, List.length_drop]
    omega
  · intro hnd
    have h1 : (if t.recent_hashes.contains (t.cacheKey ex)
        then t.recent_hashes.erase (t.cacheKey ex) else t.recent_hashes).Nodup := by
      split
      · exact hnd.erase _
      · exact hnd
    have h2 : t.cacheKey ex ∉ (if t.recent_hashes.contains (t.cacheKey ex)
        then t.recent_hashes.erase (t.cacheKey ex) else t.recent_hashes) := by
      split_ifs with hco
      · simp [List.Nodup.mem_erase_iff hnd]
      · exact fun hmem => hco (hcontains.mpr hmem)
    rw [hrec]
    refine List.Nodup.sublist (List.drop_sublist _ _) ?_
    rw [List.nodup_append]
    exact ⟨h1, List.nodup_singleton _, List.disjoint_singleton.mpr h2⟩
  · intro hpos
    rw [hrec]
    set rh1 := (if t.recent_hashes.contains (t.cacheKey ex)
      then t.recent_hashes.erase (t.cacheKey ex) else t.recent_hashes) with hrh1
    have hlen : (rh1 ++ [t.cacheKey ex]).length = rh1.length + 1 := by
      simp
    rw [List.drop_append_eq_append_drop]
    have hd : (rh1 ++ [t.cacheKey ex]).length - t.recent_history_size ≤ rh1.length := by
      omega
    have hd2 : (rh1 ++ [t.cacheKey ex]).length - t.recent_history_size - rh1.length = 0 := by
      omega
    rw [hd2, List.drop_zero, List.getLast?_concat]
  · intro hmem hnd hcap
    have hco : t.recent_hashes.contains (t.cacheKey ex) = true := hcontains.mpr hmem
    have hlenerase : (t.recent_hashes.erase (t.cacheKey ex)).length
        = t.recent_hashes.length - 1 := List.length_erase_of_mem hmem
    have hposlen : 0 < t.recent_hashes.length := List.length_pos_of_mem hmem
    rw [hrec, if_pos hco, List.length_drop]
    simp only [List.length_append, List.length_singleton, hlenerase]
    omega
  · intro hmem hcap hpos
    have hco : t.recent_hashes.contains (t.cacheKey ex) = false := by
      rw [← Bool.not_eq_true]
      exact fun h => hmem (hcontains.mp h)
    rw [hrec, hco]
    simp only [Bool.false_eq_true, if_false, List.length_append, List.length_singleton, hcap]
    have hd : t.recent_history_size + 1 - t.recent_history_size = 1 := by omega
    rw [hd, List.drop_append_eq_append_drop, List.drop_one, hcap]
    have : 1 - t.recent_history_size = 0 := by omega
    rw [this, List.drop_zero]

/-- Witness for C8 at a capacity-2 buffer `[alice:0, alice:1]`: re-annotating
task 1 keeps length 2 with `alice:1` most recent; annotating fresh task 2
evicts `alice:0`, yielding `[alice:1, alice:2]`. -/
theorem recent_history_bounded_witness :
    (annotate toolRH 2 "l" [] 9).recent_hashes = toolRH.recent_hashes.tail ++ [toolRH.cacheKey 2]
    ∧ (annotate toolRH 1 "l" [] 9).recent_hashes.length = toolRH.recent_hashes.length
    ∧ (annotate toolRH 1 "l" [] 9).recent_hashes.Nodup
    ∧ (annotate toolRH 1 "l" [] 9).recent_hashes.getLast? = some (toolRH.cacheKey 1)
    ∧ (annotate toolRH 2 "l" [] 9).recent_hashes.length ≤ toolRH.recent_history_size :=
  ⟨(recent_history_bounded toolRH 2 "l" [] 9).2.2.2.2 (by decide) (by decide) (by decide),
    (recent_history_bounded toolRH 1 "l" [] 9).2.2.2.1 (by decide) (by decide) (by decide),
    (recent_history_bounded toolRH 1 "l" [] 9).2.1 (by decide),
    (recent_history_bounded toolRH 1 "l" [] 9).2.2.1 (by decide),
    (recent_history_bounded toolRH 2 "l" [] 9).1⟩

/-- C4 (code evaluation at the failing input): after annotating tasks 0-2 of
the five-task source in cursor order, the store holds a record for task 2
under key `alice:2` and the recent history remembers that key, yet
`get_recent_tasks(limit=1)` returns the empty list — the source re-prefixes
the username onto the remembered key and looks up `alice:alice:2`, which
misses — instead of the original task of task 2. -/
theorem recent_tasks_empty_at_failing_input :
    get_recent_tasks tool3 (some 1) = Except.ok []
    ∧ tool3.recent_hashes = ["alice:0", "alice:1", "alice:2"]
    ∧ (cacheGet tool3.cache "alice:2").isSome = true :=
  ⟨rfl, rfl, rfl⟩

/-- C10 (code evaluation at the failing input): when the username-prefixed
form of a remembered entry collides with the key of another record (the
hash function is caller-supplied), the found record is subscripted at
`original_example` — a key the stored dict does not have — so
`get_recent_tasks` raises `KeyError` instead of resolving the entry. -/
theorem recent_tasks_raises_at_failing_input :
    get_recent_tasks toolAdv none = Except.error "KeyError: original_example"
    ∧ (cacheGet toolAdv.cache "u:u:x").isSome = true :=
  ⟨rfl, rfl⟩

/-- C5 (code evaluation at the failing input): with five local records whose
metadata is empty — exactly how the tests of the repository build them — and an
upstream set carrying the task-identity digests `h0`, `h1`, `h2` of the first
three, the dedup path fails (it anti-joins on `metadata.example_hash`, a field
no metadata row carries) instead of returning the two records `h3`, `h4`
that the identity-digest set-difference yields. -/
theorem dedup_errors_at_failing_input :
    getAnnotationsDedup tool5 upstream3
        = Except.error "struct field example_hash not found in metadata"
    ∧ (dedupBySpec (iterAnnotations tool5) upstream3).map Record.example_hash = ["h3", "h4"]
    ∧ upstream3.map Record.example_hash = ["h0", "h1", "h2"] :=
  ⟨rfl, rfl, rfl⟩

end Claims

end Taskhut
